import Mathlib

/-!
Verification of the active question-selection engine of a Twenty-Questions
agent (`agents.py`).  Python floats are modelled by `EFloat`: either `nan` or
an exact real payload; `float` comparisons, subtraction and the entropy
computation are modelled on that type.  Python `dict`s are modelled as
association lists with unique keys accessed through `List.lookup`.
-/

namespace TwentyQ

/-- Model of a Python float: either NaN or a real value.  (Infinities never
arise in the functions modelled here.) -/
inductive EFloat where
  | nan : EFloat
  | val : ℝ → EFloat

/-- Python float subtraction: NaN propagates. -/
noncomputable def esub : EFloat → EFloat → EFloat
  | .val a, .val b => .val (a - b)
  | _, _ => .nan

/-- Python `<` on floats: any comparison involving NaN is `False`. -/
noncomputable def ltE : EFloat → EFloat → Bool
  | .val a, .val b => decide (a < b)
  | _, _ => false

/-- Source: `EPSILON = 0.1` in `agents.py` (noise parameter for answers). -/
noncomputable def EPSILON : ℝ := 0.1

/-- Source: `binary_entropy(p)` in `agents.py`: NaN outside `[0,1]`, `0.0` at
the endpoints, otherwise the binary entropy formula with base-2 logarithms. -/
noncomputable def binary_entropy (p : ℝ) : EFloat :=
  if p < 0 ∨ p > 1 then EFloat.nan
  else if p = 0 ∨ p = 1 then EFloat.val 0
  else EFloat.val (-p * Real.logb 2 p - (1 - p) * Real.logb 2 (1 - p))

/-- Source: the loop of `EIGAgent._calculate_eig`.  Walks the sample list,
counting `"yes"` and `"no"` classifications of the samples present in the
consistency dict; an unexpected classification aborts with NaN (`none`). -/
def countAnswers (cd : List (String × String)) :
    List String → Nat → Nat → Option (Nat × Nat)
  | [], yes, no => some (yes, no)
  | obj :: rest, yes, no =>
    match cd.lookup obj with
    | none => countAnswers cd rest yes no
    | some answer =>
      if answer = "yes" then countAnswers cd rest (yes + 1) no
      else if answer = "no" then countAnswers cd rest yes (no + 1)
      else none

/-- Source: `EIGAgent._calculate_eig(consistency_dict, samples)`.  Returns NaN
on an unexpected classification, `0` when either partition is empty, and
otherwise `binary_entropy(EPSILON + (1-2*EPSILON)*p_true) -
binary_entropy(EPSILON)` with `p_true = yes / (yes + no)`. -/
noncomputable def calculate_eig (cd : List (String × String))
    (samples : List String) : EFloat :=
  match countAnswers cd samples 0 0 with
  | none => EFloat.nan
  | some (yes, no) =>
    if yes = 0 ∨ no = 0 then EFloat.val 0
    else
      esub
        (binary_entropy (EPSILON +
          (1 - 2 * EPSILON) * ((yes : ℝ) / ((yes : ℝ) + (no : ℝ)))))
        (binary_entropy EPSILON)

/-- Spec-side definition (§4.4 step 1): the `yes`-weight of a question is the
number of listed candidates that the consistency map sends to `"yes"`
(ephemeral mode: unit weights, i.e. a count). -/
def yes_weight (cd : List (String × String)) (samples : List String) : Nat :=
  (samples.filter (fun obj => cd.lookup obj = some "yes")).length

/-- Spec-side definition (§4.4 step 1): the `no`-weight of a question. -/
def no_weight (cd : List (String × String)) (samples : List String) : Nat :=
  (samples.filter (fun obj => cd.lookup obj = some "no")).length

/-- Spec-side definition (§4.4 step 4): the binary-entropy formula
`H(x) = -x*log2(x) - (1-x)*log2(1-x)` used on the open interval `(0,1)`. -/
noncomputable def entropyReal (x : ℝ) : ℝ :=
  -x * Real.logb 2 x - (1 - x) * Real.logb 2 (1 - x)

theorem binary_entropy_of_open {x : ℝ} (h0 : 0 < x) (h1 : x < 1) :
    binary_entropy x = EFloat.val (entropyReal x) := by
  unfold binary_entropy entropyReal
  rw [if_neg (by push_neg; exact ⟨by linarith, by linarith⟩),
      if_neg (by push_neg; exact ⟨by linarith, by linarith⟩)]

theorem countAnswers_eq_weights (cd : List (String × String)) :
    ∀ (samples : List String) (y n : Nat),
      (∀ obj ∈ samples, cd.lookup obj = none ∨
        cd.lookup obj = some "yes" ∨ cd.lookup obj = some "no") →
      countAnswers cd samples y n =
        some (y + yes_weight cd samples, n + no_weight cd samples)
  | [], y, n, _ => by simp [countAnswers, yes_weight, no_weight]
  | obj :: rest, y, n, h => by
    have hrest : ∀ o ∈ rest, cd.lookup o = none ∨
        cd.lookup o = some "yes" ∨ cd.lookup o = some "no" :=
      fun o ho => h o (List.mem_cons_of_mem _ ho)
    rcases h obj (List.mem_cons_self _ _) with hn | hy | hno
    · rw [show countAnswers cd (obj :: rest) y n
          = countAnswers cd rest y n by simp [countAnswers, hn],
        countAnswers_eq_weights cd rest y n hrest]
      simp [yes_weight, no_weight, List.filter_cons, hn]
    · rw [show countAnswers cd (obj :: rest) y n
          = countAnswers cd rest (y + 1) n by simp [countAnswers, hy],
        countAnswers_eq_weights cd rest (y + 1) n hrest]
      have : yes_weight cd (obj :: rest) = yes_weight cd rest + 1 := by
        simp [yes_weight, List.filter_cons, hy]
      have hno' : no_weight cd (obj :: rest) = no_weight cd rest := by
        simp [no_weight, List.filter_cons, hy]
      rw [this, hno']
      simp only [Option.some.injEq, Prod.mk.injEq]
      exact ⟨by omega, trivial⟩
    · rw [show countAnswers cd (obj :: rest) y n
          = countAnswers cd rest y (n + 1) by simp [countAnswers, hno],
        countAnswers_eq_weights cd rest y (n + 1) hrest]
      have hyy : yes_weight cd (obj :: rest) = yes_weight cd rest := by
        simp [yes_weight, List.filter_cons, hno]
      have : no_weight cd (obj :: rest) = no_weight cd rest + 1 := by
        simp [no_weight, List.filter_cons, hno]
      rw [this, hyy]
      simp only [Option.some.injEq, Prod.mk.injEq]
      exact ⟨trivial, by omega⟩

theorem countAnswers_isNone (cd : List (String × String)) :
    ∀ (samples : List String) (y n : Nat),
      (∃ obj ∈ samples, ∃ v, cd.lookup obj = some v ∧ v ≠ "yes" ∧ v ≠ "no") →
      countAnswers cd samples y n = none
  | [], _, _, h => by simp at h
  | a :: rest, y, n, h => by
    obtain ⟨obj, hmem, v, hv, hvy, hvn⟩ := h
    rcases List.mem_cons.mp hmem with rfl | hmem'
    · simp [countAnswers, hv, hvy, hvn]
    · cases hl : cd.lookup a with
      | none =>
        simp only [countAnswers, hl]
        exact countAnswers_isNone cd rest y n ⟨obj, hmem', v, hv, hvy, hvn⟩
      | some w =>
        simp only [countAnswers, hl]
        by_cases hw : w = "yes"
        · simp only [hw, if_pos rfl]
          exact countAnswers_isNone cd rest (y + 1) n ⟨obj, hmem', v, hv, hvy, hvn⟩
        · by_cases hw2 : w = "no"
          · simp only [if_neg hw, hw2, if_pos rfl]
            exact countAnswers_isNone cd rest y (n + 1) ⟨obj, hmem', v, hv, hvy, hvn⟩
          · simp [if_neg hw, if_neg hw2]

theorem countAnswers_congr (cd1 cd2 : List (String × String)) :
    ∀ (samples : List String) (y n : Nat),
      (∀ obj ∈ samples, cd1.lookup obj = cd2.lookup obj) →
      countAnswers cd1 samples y n = countAnswers cd2 samples y n
  | [], _, _, _ => rfl
  | a :: rest, y, n, h => by
    have ha : cd1.lookup a = cd2.lookup a := h a (List.mem_cons_self _ _)
    have hrest : ∀ o ∈ rest, cd1.lookup o = cd2.lookup o :=
      fun o ho => h o (List.mem_cons_of_mem _ ho)
    simp only [countAnswers, ha]
    cases cd2.lookup a with
    | none => exact countAnswers_congr cd1 cd2 rest y n hrest
    | some w =>
      by_cases hw : w = "yes"
      · simp only [hw, if_pos rfl]
        exact countAnswers_congr cd1 cd2 rest (y + 1) n hrest
      · by_cases hw2 : w = "no"
        · simp only [if_neg hw, hw2, if_pos rfl]
          exact countAnswers_congr cd1 cd2 rest y (n + 1) hrest
        · simp [if_neg hw, if_neg hw2]

end TwentyQ

namespace TwentyQ

/-- C9: the binary entropy function is symmetric on `[0,1]`, vanishes at the
endpoints, equals `1.0` at `0.5`, and is NaN outside `[0,1]`. -/
theorem binary_entropy_props :
    (∀ x : ℝ, 0 ≤ x → x ≤ 1 → binary_entropy x = binary_entropy (1 - x)) ∧
    binary_entropy 0 = EFloat.val 0 ∧
    binary_entropy 1 = EFloat.val 0 ∧
    binary_entropy (1/2) = EFloat.val 1 ∧
    (∀ x : ℝ, x < 0 ∨ x > 1 → binary_entropy x = EFloat.nan) := by
  refine ⟨?_, ?_, ?_, ?_, ?_⟩
  · intro x hx0 hx1
    unfold binary_entropy
    rcases eq_or_lt_of_le hx0 with h0 | h0
    · subst x; norm_num
    rcases eq_or_lt_of_le hx1 with h1 | h1
    · rw [h1]; norm_num
    have hx0' : ¬ (x < 0 ∨ x > 1) := by push_neg; exact ⟨by linarith, by linarith⟩
    have hy0' : ¬ (1 - x < 0 ∨ 1 - x > 1) := by push_neg; exact ⟨by linarith, by linarith⟩
    have hxe : ¬ (x = 0 ∨ x = 1) := by push_neg; exact ⟨by linarith, by linarith⟩
    have hye : ¬ (1 - x = 0 ∨ 1 - x = 1) := by push_neg; exact ⟨by linarith, by linarith⟩
    rw [if_neg hx0', if_neg hy0', if_neg hxe, if_neg hye]
    have : (1 : ℝ) - (1 - x) = x := by ring
    rw [this]
    congr 1
    ring
  · unfold binary_entropy; norm_num
  · unfold binary_entropy; norm_num
  · unfold binary_entropy
    norm_num
    have h2 : Real.logb 2 (2⁻¹ : ℝ) = -1 := by
      rw [Real.logb_inv, Real.logb_self_eq_one one_lt_two]
    rw [show ((1 : ℝ)/2) = (2⁻¹ : ℝ) by norm_num, h2]
    norm_num
  · intro x hx
    unfold binary_entropy
    rw [if_pos hx]

end TwentyQ

namespace TwentyQ

/-- C2: when every listed candidate present in the consistency map is
classified "yes" or "no" and both partitions are non-empty, the EIG score is
`H(EPSILON + (1 - 2*EPSILON)*p) - H(EPSILON)` with
`p = yes_weight / (yes_weight + no_weight)`, counted only over listed
candidates present in the map (absent candidates contribute zero, no error). -/
theorem eig_entropy_formula (cd : List (String × String)) (samples : List String)
    (hcls : ∀ obj ∈ samples, cd.lookup obj = none ∨
      cd.lookup obj = some "yes" ∨ cd.lookup obj = some "no")
    (hy : 0 < yes_weight cd samples) (hn : 0 < no_weight cd samples) :
    calculate_eig cd samples =
      EFloat.val
        (entropyReal (EPSILON + (1 - 2 * EPSILON) *
            ((yes_weight cd samples : ℝ) /
              ((yes_weight cd samples : ℝ) + (no_weight cd samples : ℝ)))) -
          entropyReal EPSILON) := by
  have hE : EPSILON = (1 / 10 : ℝ) := by norm_num [EPSILON]
  set Y : ℝ := (yes_weight cd samples : ℝ) with hY
  set N : ℝ := (no_weight cd samples : ℝ) with hN
  have hY0 : 0 < Y := by rw [hY]; exact_mod_cast hy
  have hN0 : 0 < N := by rw [hN]; exact_mod_cast hn
  have hp0 : 0 < Y / (Y + N) := div_pos hY0 (by linarith)
  have hp1 : Y / (Y + N) < 1 := (div_lt_one (by linarith)).mpr (by linarith)
  have harg0 : 0 < EPSILON + (1 - 2 * EPSILON) * (Y / (Y + N)) := by
    rw [hE]; nlinarith
  have harg1 : EPSILON + (1 - 2 * EPSILON) * (Y / (Y + N)) < 1 := by
    rw [hE]; nlinarith
  unfold calculate_eig
  rw [countAnswers_eq_weights cd samples 0 0 hcls]
  simp only [Nat.zero_add]
  rw [if_neg (by push_neg; omega)]
  rw [binary_entropy_of_open harg0 harg1,
      binary_entropy_of_open (by rw [hE]; norm_num) (by rw [hE]; norm_num)]
  rfl

/-- C2 witness: concrete two-candidate pool split one yes / one no. -/
theorem eig_entropy_formula_witness :
    calculate_eig [("a", "yes"), ("b", "no")] ["a", "b"] =
      EFloat.val
        (entropyReal (EPSILON + (1 - 2 * EPSILON) *
            ((yes_weight [("a", "yes"), ("b", "no")] ["a", "b"] : ℝ) /
              ((yes_weight [("a", "yes"), ("b", "no")] ["a", "b"] : ℝ) +
                (no_weight [("a", "yes"), ("b", "no")] ["a", "b"] : ℝ)))) -
          entropyReal EPSILON) :=
  eig_entropy_formula _ _ (by decide) (by decide) (by decide)

/-- C3: when every listed candidate present in the map is classified "yes" or
"no" and one of the two partitions is empty (in particular when no listed
candidate appears in the map at all), the EIG score is exactly `0`, returned
directly rather than computed via entropy. -/
theorem eig_zero_on_uniform_pool (cd : List (String × String))
    (samples : List String)
    (hcls : ∀ obj ∈ samples, cd.lookup obj = none ∨
      cd.lookup obj = some "yes" ∨ cd.lookup obj = some "no")
    (hzero : yes_weight cd samples = 0 ∨ no_weight cd samples = 0) :
    calculate_eig cd samples = EFloat.val 0 := by
  unfold calculate_eig
  rw [countAnswers_eq_weights cd samples 0 0 hcls]
  simp only [Nat.zero_add]
  rw [if_pos hzero]

/-- C3 witness: all candidates map to "yes", so the no-partition is empty. -/
theorem eig_zero_on_uniform_pool_witness :
    calculate_eig [("a", "yes"), ("b", "yes")] ["a", "b"] = EFloat.val 0 :=
  eig_zero_on_uniform_pool _ _ (by decide) (by decide)

/-- C4: if some listed candidate is present in the consistency map with a
classification that is neither "yes" nor "no", the EIG score is NaN, returned
as a value rather than raised. -/
theorem eig_nan_on_bad_classification (cd : List (String × String))
    (samples : List String)
    (hbad : ∃ obj ∈ samples, ∃ v,
      cd.lookup obj = some v ∧ v ≠ "yes" ∧ v ≠ "no") :
    calculate_eig cd samples = EFloat.nan := by
  unfold calculate_eig
  rw [countAnswers_isNone cd samples 0 0 hbad]

/-- C4 witness: a candidate classified "maybe" yields a NaN score. -/
theorem eig_nan_on_bad_classification_witness :
    calculate_eig [("a", "maybe")] ["a"] = EFloat.nan :=
  eig_nan_on_bad_classification _ _
    ⟨"a", by decide, "maybe", by decide, by decide, by decide⟩

/-- C10: the EIG score depends only on the consistency-map entries whose keys
are listed candidates: two maps agreeing on every listed candidate give the
same score, so entries under non-candidate keys (even malformed ones) are
ignored entirely. -/
theorem eig_depends_only_on_candidate_entries
    (cd1 cd2 : List (String × String)) (samples : List String)
    (h : ∀ obj ∈ samples, cd1.lookup obj = cd2.lookup obj) :
    calculate_eig cd1 samples = calculate_eig cd2 samples := by
  unfold calculate_eig
  rw [countAnswers_congr cd1 cd2 samples 0 0 h]

/-- C10 witness: a malformed entry under a key that is not a listed candidate
does not change the score. -/
theorem eig_depends_only_on_candidate_entries_witness :
    calculate_eig [("a", "yes")] ["a"] =
      calculate_eig [("a", "yes"), ("z", "weird")] ["a"] :=
  eig_depends_only_on_candidate_entries _ _ _ (by decide)

end TwentyQ

namespace TwentyQ

/-- Model of one game-history entry: a `player` id and a `message`. -/
structure Entry where
  player : Int
  message : String
deriving DecidableEq

/-- Source: the player-label table `player_dict` in `agents.py`, which maps
-1 to "GAME" and 0 to "PLAYER"; indexing with any other player id raises
`KeyError`, modelled by `none`. -/
def player_dict (p : Int) : Option String :=
  if p = -1 then some "GAME" else if p = 0 then some "PLAYER" else none

/-- Source: `LLMAgent.format_history`: one serialized line per entry,
prefixed by the speaker label; an unknown player id fails (KeyError). -/
def format_history : List Entry → Option String
  | [] => some ""
  | e :: rest => do
    let p ← player_dict e.player
    let r ← format_history rest
    pure ("[" ++ p ++ "] " ++ e.message ++ "\n" ++ r)

/-- Source: `DecisionType.QUESTION`. -/
def DecisionType.QUESTION : String := "question"

/-- Source: `DecisionType.GUESS`. -/
def DecisionType.GUESS : String := "guess"

/-- Which oracle path produced the turn's action, with the arguments the code
passes to that path. -/
inductive Action where
  | move (history : String) : Action
  | question (history : String) (remaining : Int) : Action
deriving DecidableEq

/-- Source: `LLMAgent.__call__`.  The value returned by the oracle `decision`
call (given that it returned one) is the `decision` parameter; the branch then
selects the final-guess path or the question path. -/
def llm_call (decision : String) (game_history : List Entry) : Option Action := do
  let formatted_history ← format_history game_history
  let player_questions : Int :=
    ((game_history.filter (fun e => e.player = 0)).length : Int)
  let remaining_questions : Int := max 0 (20 - player_questions)
  if DecisionType.GUESS = decision ∨ remaining_questions = 0 then
    pure (Action.move formatted_history)
  else
    pure (Action.question formatted_history remaining_questions)

end TwentyQ

namespace TwentyQ

/-- C1: with at least 20 player-authored history entries the remaining budget
computes to 0, so whenever the decide call returned a value at all, the
action is produced by the final-guess (`move`) path, never the question path,
regardless of whether the returned decision was QUESTION or GUESS. -/
theorem forced_guess_at_zero_budget (game_history : List Entry) (d : String)
    (_hd : d = DecisionType.QUESTION ∨ d = DecisionType.GUESS)
    (h20 : 20 ≤ (game_history.filter (fun e => e.player = 0)).length) :
    llm_call d game_history =
      Option.map Action.move (format_history game_history) := by
  unfold llm_call
  cases hf : format_history game_history with
  | none => rfl
  | some fh =>
    have hpq : (20 : Int) -
        ((game_history.filter (fun e => e.player = 0)).length : Int) ≤ 0 := by
      have : (20 : Int) ≤
          ((game_history.filter (fun e => e.player = 0)).length : Int) := by
        exact_mod_cast h20
      omega
    simp only [Option.bind_eq_bind, Option.some_bind, Option.map_some']
    rw [max_eq_left hpq]
    rw [if_pos (Or.inr rfl)]
    rfl

/-- C1 witness: a history of 20 player entries with the oracle answering
QUESTION still produces the move path. -/
theorem forced_guess_at_zero_budget_witness :
    llm_call DecisionType.QUESTION (List.replicate 20 (Entry.mk 0 "q")) =
      Option.map Action.move
        (format_history (List.replicate 20 (Entry.mk 0 "q"))) :=
  forced_guess_at_zero_budget _ _ (Or.inl rfl) (by decide)

end TwentyQ

namespace TwentyQ

/-- Extraction of the text between the answer tags (`ANSWER_REGEX.search`
followed by `.group(1)`), modelled abstractly: `none` when the regex does not
match the response. -/
def Extractor : Type := String → Option String

/-- Source: the parse attempt inside `LLMAgent.decision`: extract the answer
region, strip and lower-case it, and accept exactly "question" or "guess". -/
def parse_decision (extract : Extractor) (response : String) : Option String :=
  match extract response with
  | none => none
  | some g =>
    let d := g.trim.toLower
    if d = "question" then some DecisionType.QUESTION
    else if d = "guess" then some DecisionType.GUESS
    else none

/-- Shared shape of every bounded retry loop in `agents.py`: each element of
`responses` is the oracle's reply to one (identical) re-issued request, and
the first reply that parses wins. -/
def retryParse (parse : String → Option α) : List String → Option α
  | [] => none
  | r :: rs =>
    match parse r with
    | some v => some v
    | none => retryParse parse rs

/-- Source: `LLMAgent.decision`: after `max_retries` failed parses the
`for`-`else` clause raises `ValueError` (error message abbreviated). -/
def decision_call (extract : Extractor) (responses : List String) :
    Except String String :=
  match retryParse (parse_decision extract) responses with
  | some d => Except.ok d
  | none => Except.error "Unexpected decision"

/-- Source: `LLMAgent.question`: the parse is extraction plus strip; retries
exhausted raises `ValueError`. -/
def question_call (extract : Extractor) (responses : List String) :
    Except String String :=
  match retryParse (fun r => (extract r).map String.trim) responses with
  | some q => Except.ok q
  | none => Except.error "Unexpected response"

/-- Source: `LLMAgent.move`: extraction plus strip, then the answer is
wrapped in brackets unless already bracketed; retries exhausted raises
`ValueError`. -/
def move_call (extract : Extractor) (responses : List String) :
    Except String String :=
  match retryParse (fun r => (extract r).map (fun g =>
      let answer := g.trim
      if answer.startsWith "[" && answer.endsWith "]" then answer
      else "[" ++ answer ++ "]")) responses with
  | some m => Except.ok m
  | none => Except.error "Unexpected move"

/-- Source: `EIGAgent._generate_fresh_samples`: extraction, then a JSON parse
with an `ast.literal_eval` fallback producing the dict's value list (modelled
by `parse_values`, `none` when both parses fail), each value lower-cased and
stripped; retries exhausted raises `ValueError`. -/
def generate_fresh_samples_call (extract : Extractor)
    (parse_values : String → Option (List String))
    (responses : List String) : Except String (List String) :=
  match retryParse (fun r => (extract r).bind (fun c =>
      (parse_values c.trim).map (fun vs =>
        vs.map (fun obj => obj.toLower.trim)))) responses with
  | some s => Except.ok s
  | none => Except.error "Failed to generate fresh samples"

/-- Source: `EIGAgent._get_consistency_dict`: extraction, then a JSON parse
with an `ast.literal_eval` fallback producing the consistency dict (modelled
by `parse_dict`); retries exhausted raises `ValueError`. -/
def consistency_call (extract : Extractor)
    (parse_dict : String → Option (List (String × String)))
    (responses : List String) : Except String (List (String × String)) :=
  match retryParse (fun r => (extract r).bind (fun c => parse_dict c.trim))
      responses with
  | some d => Except.ok d
  | none => Except.error "Failed to generate fresh samples"

/-- Source: `EIGAgent._generate_batch_questions`: extraction, then a JSON
parse with an `ast.literal_eval` fallback producing the dict's value list,
each value stripped; after exhausting retries the function prints a message
and RETURNS the empty list instead of raising. -/
def generate_batch_questions_call (extract : Extractor)
    (parse_values : String → Option (List String))
    (responses : List String) : Except String (List String) :=
  match retryParse (fun r => (extract r).bind (fun c =>
      (parse_values c.trim).map (fun qs => qs.map String.trim))) responses with
  | some qs => Except.ok qs
  | none => Except.ok []

theorem retryParse_eq_none (parse : String → Option α) :
    ∀ rs : List String, (∀ r ∈ rs, parse r = none) →
      retryParse parse rs = none
  | [], _ => rfl
  | r :: rs, h => by
    have hr : parse r = none := h r (List.mem_cons_self _ _)
    simp only [retryParse, hr]
    exact retryParse_eq_none parse rs fun x hx => h x (List.mem_cons_of_mem _ hx)

end TwentyQ

namespace TwentyQ

/-- C7 counterexample: at the batch-question call site, when every one of the
10 attempts fails to yield a parseable structured value, the call does not
raise: it returns the default empty list. -/
theorem batch_questions_silently_default :
    generate_batch_questions_call (fun _ => none) (fun _ => none)
      ["r", "r", "r", "r", "r", "r", "r", "r", "r", "r"] = Except.ok [] :=
  rfl

/-- C7 amended: when every attempt fails to parse, the decision, question,
move, sample-generation and consistency-classification call sites raise an
error that propagates to the caller, but the batch-question-generation site
instead returns the empty list. -/
theorem retry_exhaustion_outcomes (extract : Extractor)
    (parse_values : String → Option (List String))
    (parse_dict : String → Option (List (String × String)))
    (responses : List String)
    (hfail : ∀ r ∈ responses, extract r = none) :
    decision_call extract responses = Except.error "Unexpected decision" ∧
    question_call extract responses = Except.error "Unexpected response" ∧
    move_call extract responses = Except.error "Unexpected move" ∧
    generate_fresh_samples_call extract parse_values responses =
      Except.error "Failed to generate fresh samples" ∧
    consistency_call extract parse_dict responses =
      Except.error "Failed to generate fresh samples" ∧
    generate_batch_questions_call extract parse_values responses =
      Except.ok [] := by
  refine ⟨?_, ?_, ?_, ?_, ?_, ?_⟩
  · unfold decision_call
    rw [retryParse_eq_none _ _ fun r hr => by
      simp [parse_decision, hfail r hr]]
  · unfold question_call
    rw [retryParse_eq_none _ _ fun r hr => by simp [hfail r hr]]
  · unfold move_call
    rw [retryParse_eq_none _ _ fun r hr => by simp [hfail r hr]]
  · unfold generate_fresh_samples_call
    rw [retryParse_eq_none _ _ fun r hr => by simp [hfail r hr]]
  · unfold consistency_call
    rw [retryParse_eq_none _ _ fun r hr => by simp [hfail r hr]]
  · unfold generate_batch_questions_call
    rw [retryParse_eq_none _ _ fun r hr => by simp [hfail r hr]]

/-- C7 witness: ten unparseable responses at every call site. -/
theorem retry_exhaustion_outcomes_witness :
    decision_call (fun _ => none)
        ["r", "r", "r", "r", "r", "r", "r", "r", "r", "r"] =
      Except.error "Unexpected decision" ∧
    question_call (fun _ => none)
        ["r", "r", "r", "r", "r", "r", "r", "r", "r", "r"] =
      Except.error "Unexpected response" ∧
    move_call (fun _ => none)
        ["r", "r", "r", "r", "r", "r", "r", "r", "r", "r"] =
      Except.error "Unexpected move" ∧
    generate_fresh_samples_call (fun _ => none) (fun _ => none)
        ["r", "r", "r", "r", "r", "r", "r", "r", "r", "r"] =
      Except.error "Failed to generate fresh samples" ∧
    consistency_call (fun _ => none) (fun _ => none)
        ["r", "r", "r", "r", "r", "r", "r", "r", "r", "r"] =
      Except.error "Failed to generate fresh samples" ∧
    generate_batch_questions_call (fun _ => none) (fun _ => none)
        ["r", "r", "r", "r", "r", "r", "r", "r", "r", "r"] =
      Except.ok [] :=
  retry_exhaustion_outcomes (fun _ => none) (fun _ => none) (fun _ => none)
    ["r", "r", "r", "r", "r", "r", "r", "r", "r", "r"]
    (fun _ _ => rfl)

end TwentyQ

namespace TwentyQ

theorem char_toNat_ofNat {m : Nat} (h : m < 55296) : (Char.ofNat m).toNat = m := by
  rw [Char.ofNat, dif_pos (Or.inl h)]
  rfl

theorem toLower_toLower (c : Char) : c.toLower.toLower = c.toLower := by
  unfold Char.toLower
  by_cases h : c.toNat ≥ 65 ∧ c.toNat ≤ 90
  · rw [if_pos h]
    have hd : (Char.ofNat (c.toNat + 32)).toNat = c.toNat + 32 :=
      char_toNat_ofNat (by omega)
    rw [if_neg (by rw [hd]; omega)]
  · rw [if_neg h, if_neg h]

theorem dropWhile_head_false (p : Char → Bool) :
    ∀ (l : List Char) (x : Char), (l.dropWhile p).head? = some x → p x = false
  | [], x, h => by simp [List.dropWhile] at h
  | a :: l, x, h => by
    by_cases ha : p a
    · rw [List.dropWhile_cons_of_pos ha] at h
      exact dropWhile_head_false p l x h
    · rw [List.dropWhile_cons_of_neg ha] at h
      simp at h
      subst h
      exact Bool.eq_false_iff.mpr ha

theorem dropWhile_dropWhile (p : Char → Bool) (l : List Char) :
    (l.dropWhile p).dropWhile p = l.dropWhile p := by
  cases h : l.dropWhile p with
  | nil => rfl
  | cons x xs =>
    have hx : p x = false := dropWhile_head_false p l x (by rw [h]; rfl)
    rw [List.dropWhile_cons_of_neg (by simp [hx])]

/-- Model of Python `str.strip` on the character list of a string: remove
leading and trailing whitespace (ASCII whitespace, per `Char.isWhitespace`). -/
def pyStrip (s : List Char) : List Char :=
  ((s.dropWhile Char.isWhitespace).reverse.dropWhile Char.isWhitespace).reverse

/-- Model of Python `str.lower` on the character list of a string (basic
latin range, per `Char.toLower`). -/
def pyLower (s : List Char) : List Char := s.map Char.toLower

/-- Canonical form of a candidate string: `obj.lower().strip()`, the
transform applied in `EIGAgent._generate_fresh_samples`. -/
def canon (s : List Char) : List Char := pyStrip (pyLower s)

/-- Source: `samples = [obj.lower().strip() for obj in samples_dict.values()]`
in `EIGAgent._generate_fresh_samples`: the candidate pool built from a
successfully parsed sampling response whose dict values are `vals` (no
deduplication step follows). -/
def fresh_samples (vals : List (List Char)) : List (List Char) :=
  vals.map canon

theorem pyStrip_prefix (s : List Char) :
    pyStrip s <+: s.dropWhile Char.isWhitespace := by
  unfold pyStrip
  have hsuf : (s.dropWhile Char.isWhitespace).reverse.dropWhile Char.isWhitespace
      <:+ (s.dropWhile Char.isWhitespace).reverse := List.dropWhile_suffix _
  have := List.reverse_prefix.mpr hsuf
  simpa using this

theorem pyStrip_idem (s : List Char) : pyStrip (pyStrip s) = pyStrip s := by
  set p := Char.isWhitespace
  set A := s.dropWhile p with hA
  set B := pyStrip s with hB
  have hBA : B <+: A := pyStrip_prefix s
  have h1 : B.dropWhile p = B := by
    cases hb : B with
    | nil => rfl
    | cons x xs =>
      obtain ⟨t, ht⟩ := hBA
      have hAh : A.head? = some x := by
        rw [← ht, hb]; rfl
      have hx : p x = false := dropWhile_head_false p s x hAh
      rw [List.dropWhile_cons_of_neg (by simp [hx])]
  have h2 : B.reverse = A.reverse.dropWhile p := by
    rw [hB]
    unfold pyStrip
    rw [List.reverse_reverse]
  show ((B.dropWhile p).reverse.dropWhile p).reverse = B
  rw [h1, h2, dropWhile_dropWhile, ← h2, List.reverse_reverse]

theorem pyLower_pyLower (s : List Char) : pyLower (pyLower s) = pyLower s := by
  unfold pyLower
  rw [List.map_map]
  exact List.map_congr_left fun c _ => toLower_toLower c

theorem mem_pyStrip {c : Char} {s : List Char} (h : c ∈ pyStrip s) : c ∈ s := by
  unfold pyStrip at h
  rw [List.mem_reverse] at h
  have h2 := (List.dropWhile_suffix (l := (s.dropWhile Char.isWhitespace).reverse)
    Char.isWhitespace).mem h
  rw [List.mem_reverse] at h2
  exact (List.dropWhile_suffix Char.isWhitespace).mem h2

theorem pyLower_of_mem_lowered {s : List Char}
    (h : ∀ c ∈ s, c.toLower = c) : pyLower s = s := by
  unfold pyLower
  rw [List.map_congr_left (g := id) h]
  exact List.map_id s

theorem canon_idem (s : List Char) : canon (canon s) = canon s := by
  unfold canon
  have hlow : ∀ c ∈ pyLower s, c.toLower = c := by
    intro c hc
    obtain ⟨a, _, rfl⟩ := List.mem_map.mp hc
    exact toLower_toLower a
  rw [pyLower_of_mem_lowered (fun c hc => hlow c (mem_pyStrip hc))]
  exact pyStrip_idem _

end TwentyQ

namespace TwentyQ

/-- C8 counterexample: the raw dict values "Coconut" and " coconut " differ
only in case and surrounding whitespace, yet the parsed pool keeps two
entries — two entries of the pool share the same canonical form. -/
theorem fresh_samples_duplicate_canon :
    fresh_samples [['C', 'o', 'c', 'o', 'n', 'u', 't'],
        [' ', 'c', 'o', 'c', 'o', 'n', 'u', 't', ' ']] =
      [['c', 'o', 'c', 'o', 'n', 'u', 't'], ['c', 'o', 'c', 'o', 'n', 'u', 't']] ∧
    ¬ List.Pairwise (fun a b => canon a ≠ canon b)
        (fresh_samples [['C', 'o', 'c', 'o', 'n', 'u', 't'],
          [' ', 'c', 'o', 'c', 'o', 'n', 'u', 't', ' ']]) := by
  exact ⟨by decide, by decide⟩

/-- C8 amended: every candidate in the parsed pool is in canonical form
(equal to itself lower-cased and trimmed), but the pool is not deduplicated:
raw variants differing only in case or whitespace each contribute an entry. -/
theorem fresh_samples_canonical (vals : List (List Char)) :
    ∀ s ∈ fresh_samples vals, canon s = s := by
  intro s hs
  obtain ⟨v, _, rfl⟩ := List.mem_map.mp hs
  exact canon_idem v

/-- C8 witness: the canonical form of a concrete parsed candidate. -/
theorem fresh_samples_canonical_witness :
    canon ['c', 'a', 'r'] = ['c', 'a', 'r'] :=
  fresh_samples_canonical [['C', 'a', 'r']] ['c', 'a', 'r'] (by decide)

end TwentyQ

namespace TwentyQ

theorem ltE_irrefl (e : EFloat) : ltE e e = false := by
  cases e with
  | nan => rfl
  | val r => simp [ltE]

theorem ltE_true_elim {a b : EFloat} (h : ltE a b = true) :
    ∃ x y, a = .val x ∧ b = .val y ∧ x < y := by
  cases a with
  | nan => simp [ltE] at h
  | val x =>
    cases b with
    | nan => simp [ltE] at h
    | val y =>
      simp [ltE] at h
      exact ⟨x, y, rfl, rfl, h⟩

theorem exists_val {e : EFloat} (h : e ≠ .nan) : ∃ r, e = .val r := by
  cases e with
  | nan => exact absurd rfl h
  | val r => exact ⟨r, rfl⟩

variable {α : Type} (key : α → EFloat)

/-- Stable insertion of one element into an already-sorted list: the element
goes before the first entry whose key is strictly greater under Python float
`<`, hence after every entry comparing equal or unordered.  Folding this over
the input models CPython's stable ascending sort: identical to it whenever
the keys are totally ordered (all non-NaN), and coinciding with Timsort
as well on lists of length at most two, as in the NaN evaluation below. -/
noncomputable def pyInsert (x : α) : List α → List α
  | [] => [x]
  | y :: ys => if ltE (key x) (key y) then x :: y :: ys else y :: pyInsert x ys

/-- Model of Python `sorted(l, key=...)` (stable, ascending). -/
noncomputable def pySortAsc (l : List α) : List α :=
  l.foldl (fun acc x => pyInsert key x acc) []

/-- Model of Python `sorted(l, key=..., reverse=True)`: CPython implements
`reverse=True` by reversing the list, stable-sorting ascending, and
reversing again (preserving stability). -/
noncomputable def pySortedRev (l : List α) : List α :=
  (pySortAsc key l.reverse).reverse

/-- Source: `sorted(question_list, key=lambda x: x[1], reverse=True)[0][0]`
in `EIGAgent.question`: the first entry of the descending-sorted batch of
(question, EIG score) pairs; `none` models the IndexError on an empty
batch. -/
noncomputable def best_question (l : List (String × EFloat)) : Option String :=
  ((pySortedRev (fun q => q.2) l).head?).map Prod.fst

/-- Modelled from the spec (§4.5, §8): the selector's contract is to return
the first question in the batch's original order attaining the maximal
score (first-seen wins on ties). -/
noncomputable def firstArgmax : List α → Option α
  | [] => none
  | x :: xs =>
    match firstArgmax xs with
    | none => some x
    | some b => if ltE (key x) (key b) then some b else some x

theorem pyInsert_ne_nil (x : α) (m : List α) : pyInsert key x m ≠ [] := by
  cases m with
  | nil => simp [pyInsert]
  | cons y ys =>
    unfold pyInsert
    by_cases h : ltE (key x) (key y) = true
    · simp [h]
    · simp [h]

theorem mem_pyInsert (a x : α) :
    ∀ m : List α, a ∈ pyInsert key x m → a = x ∨ a ∈ m
  | [], h => by
    simp [pyInsert] at h
    exact Or.inl h
  | y :: ys, h => by
    unfold pyInsert at h
    by_cases hc : ltE (key x) (key y) = true
    · rw [if_pos hc] at h
      rcases List.mem_cons.mp h with rfl | h2
      · exact Or.inl rfl
      · exact Or.inr h2
    · rw [if_neg hc] at h
      rcases List.mem_cons.mp h with rfl | h2
      · exact Or.inr (List.mem_cons_self _ _)
      · rcases mem_pyInsert a x ys h2 with h3 | h3
        · exact Or.inl h3
        · exact Or.inr (List.mem_cons_of_mem _ h3)

theorem pyInsert_append_of_all_false (x : α) :
    ∀ m : List α, (∀ y ∈ m, ltE (key x) (key y) = false) →
      pyInsert key x m = m ++ [x]
  | [], _ => rfl
  | y :: ys, h => by
    unfold pyInsert
    rw [if_neg (by simp [h y (List.mem_cons_self _ _)])]
    rw [pyInsert_append_of_all_false x ys
      (fun z hz => h z (List.mem_cons_of_mem _ hz))]
    rfl

theorem getLast?_pyInsert_of_lt (x b : α) :
    ∀ m : List α, m.getLast? = some b → ltE (key x) (key b) = true →
      (pyInsert key x m).getLast? = some b
  | [], hlast, _ => by simp at hlast
  | [y], hlast, hlt => by
    simp at hlast
    subst hlast
    unfold pyInsert
    rw [if_pos hlt]
    rfl
  | y :: z :: zs, hlast, hlt => by
    rw [List.getLast?_cons_cons] at hlast
    unfold pyInsert
    by_cases hc : ltE (key x) (key y) = true
    · rw [if_pos hc]
      rw [show (x :: y :: z :: zs).getLast? = (z :: zs).getLast? by
        rw [List.getLast?_cons_cons, List.getLast?_cons_cons]]
      exact hlast
    · rw [if_neg hc]
      have hne := pyInsert_ne_nil key x (z :: zs)
      have ih := getLast?_pyInsert_of_lt x b (z :: zs) hlast hlt
      cases hp : pyInsert key x (z :: zs) with
      | nil => exact absurd hp hne
      | cons w ws =>
        rw [hp] at ih
        rw [List.getLast?_cons_cons]
        exact ih

theorem mem_sortLoop :
    ∀ (l : List α) (a : α),
      a ∈ List.foldr (fun x acc => pyInsert key x acc) [] l → a ∈ l
  | [], a, h => by simp at h
  | x :: xs, a, h => by
    rcases mem_pyInsert key a x _ h with rfl | h2
    · exact List.mem_cons_self _ _
    · exact List.mem_cons_of_mem _ (mem_sortLoop xs a h2)

end TwentyQ

namespace TwentyQ

variable {α : Type} (key : α → EFloat)

theorem sortLoop_getLast_eq_firstArgmax :
    ∀ l : List α, (∀ a ∈ l, key a ≠ .nan) →
      (List.foldr (fun x acc => pyInsert key x acc) [] l).getLast? =
          firstArgmax key l ∧
        (∀ b, (List.foldr (fun x acc => pyInsert key x acc) [] l).getLast? =
            some b →
          ∀ y ∈ List.foldr (fun x acc => pyInsert key x acc) [] l,
            ltE (key b) (key y) = false)
  | [], _ => ⟨rfl, by intro b hb; simp at hb⟩
  | x :: xs, hnn => by
    have hnnxs : ∀ a ∈ xs, key a ≠ .nan :=
      fun a ha => hnn a (List.mem_cons_of_mem _ ha)
    obtain ⟨ih1, ih2⟩ := sortLoop_getLast_eq_firstArgmax xs hnnxs
    set m := List.foldr (fun x acc => pyInsert key x acc) [] xs with hm
    cases hfa : firstArgmax key xs with
    | none =>
      have hm0 : m.getLast? = none := by rw [ih1, hfa]
      have hm1 : m = [] := by
        cases hmm : m with
        | nil => rfl
        | cons a as =>
          rw [hmm] at hm0
          rw [List.getLast?_eq_none_iff] at hm0
          exact absurd hm0 (List.cons_ne_nil a as)
      constructor
      · show (pyInsert key x m).getLast? = firstArgmax key (x :: xs)
        rw [hm1]
        simp [firstArgmax, hfa, pyInsert]
      · intro b hb y hy
        have hb2 : (pyInsert key x m).getLast? = some b := hb
        have hy2 : y ∈ pyInsert key x m := hy
        rw [hm1] at hb2 hy2
        simp [pyInsert] at hb2 hy2
        subst hb2
        subst hy2
        exact ltE_irrefl _
    | some c =>
      have hlast : m.getLast? = some c := by rw [ih1, hfa]
      have hcm : c ∈ m := List.mem_of_getLast?_eq_some hlast
      have hcxs : c ∈ xs := mem_sortLoop key xs c hcm
      obtain ⟨rc, hrc⟩ := exists_val (hnnxs c hcxs)
      obtain ⟨rx, hrx⟩ := exists_val (hnn x (List.mem_cons_self _ _))
      by_cases hlt : ltE (key x) (key c) = true
      · have hins := getLast?_pyInsert_of_lt key x c m hlast hlt
        constructor
        · show (pyInsert key x m).getLast? = firstArgmax key (x :: xs)
          rw [hins]
          simp [firstArgmax, hfa, hlt]
        · intro b hb y hy
          have hb2 : (pyInsert key x m).getLast? = some b := hb
          have hy2 : y ∈ pyInsert key x m := hy
          rw [hins] at hb2
          injection hb2 with hb2
          subst hb2
          rcases mem_pyInsert key y x m hy2 with rfl | hym
          · rw [hrx, hrc] at hlt
            rw [hrc, hrx]
            simp [ltE] at hlt ⊢
            linarith
          · exact ih2 c hlast y hym
      · have hrxc : ¬ (rx < rc) := by
          rw [hrx, hrc] at hlt
          simpa [ltE] using hlt
        have hall : ∀ y ∈ m, ltE (key x) (key y) = false := by
          intro y hym
          obtain ⟨ry, hry⟩ := exists_val (hnnxs y (mem_sortLoop key xs y hym))
          have h2 := ih2 c hlast y hym
          rw [hrc, hry] at h2
          rw [hrx, hry]
          simp [ltE] at h2 ⊢
          linarith
        have hconc := pyInsert_append_of_all_false key x m hall
        constructor
        · show (pyInsert key x m).getLast? = firstArgmax key (x :: xs)
          rw [hconc, List.getLast?_concat]
          simp [firstArgmax, hfa, hlt]
        · intro b hb y hy
          have hb2 : (pyInsert key x m).getLast? = some b := hb
          have hy2 : y ∈ pyInsert key x m := hy
          rw [hconc, List.getLast?_concat] at hb2
          injection hb2 with hb2
          subst hb2
          rw [hconc] at hy2
          rcases List.mem_append.mp hy2 with hym | hyx
          · exact hall y hym
          · simp at hyx
            subst hyx
            exact ltE_irrefl _

theorem firstArgmax_eq_none {l : List α} (h : firstArgmax key l = none) :
    l = [] := by
  cases l with
  | nil => rfl
  | cons x xs =>
    unfold firstArgmax at h
    cases hfa : firstArgmax key xs with
    | none =>
      rw [hfa] at h
      exact Option.noConfusion (h : (some x : Option α) = none)
    | some c =>
      rw [hfa] at h
      have h2 : (if ltE (key x) (key c) = true then some c else some x) =
          (none : Option α) := h
      by_cases hc : ltE (key x) (key c) = true
      · rw [if_pos hc] at h2
        exact Option.noConfusion h2
      · rw [if_neg hc] at h2
        exact Option.noConfusion h2

theorem firstArgmax_spec :
    ∀ (l : List α), (∀ a ∈ l, key a ≠ .nan) → ∀ b, firstArgmax key l = some b →
      b ∈ l ∧ (∀ y ∈ l, ltE (key b) (key y) = false) ∧
      ∃ pre post, l = pre ++ b :: post ∧ ∀ y ∈ pre, ltE (key y) (key b) = true
  | [], _, b, h => by simp [firstArgmax] at h
  | x :: xs, hnn, b, h => by
    have hnnxs : ∀ a ∈ xs, key a ≠ .nan :=
      fun a ha => hnn a (List.mem_cons_of_mem _ ha)
    unfold firstArgmax at h
    cases hfa : firstArgmax key xs with
    | none =>
      rw [hfa] at h
      have h2 : some x = some b := h
      injection h2 with h2
      subst h2
      have hxs : xs = [] := firstArgmax_eq_none key hfa
      subst hxs
      refine ⟨List.mem_cons_self _ _, ?_, [], [], rfl, by simp⟩
      intro y hy
      simp at hy
      subst hy
      exact ltE_irrefl _
    | some c =>
      rw [hfa] at h
      have h2 : (if ltE (key x) (key c) = true then some c else some x) =
          some b := h
      obtain ⟨hcm, hcmax, pre, post, hsplit, hpre⟩ :=
        firstArgmax_spec xs hnnxs c hfa
      by_cases hlt : ltE (key x) (key c) = true
      · rw [if_pos hlt] at h2
        injection h2 with h2
        subst h2
        refine ⟨List.mem_cons_of_mem _ hcm, ?_, x :: pre, post,
          by rw [hsplit]; rfl, ?_⟩
        · intro y hy
          rcases List.mem_cons.mp hy with rfl | hy2
          · obtain ⟨rx, rb, hx, hb, hlt2⟩ := ltE_true_elim hlt
            rw [hx, hb]
            rw [hx] at hlt
            simp [ltE]
            linarith
          · exact hcmax y hy2
        · intro y hy
          rcases List.mem_cons.mp hy with rfl | hy2
          · exact hlt
          · exact hpre y hy2
      · rw [if_neg hlt] at h2
        injection h2 with h2
        subst h2
        obtain ⟨rb, hrb⟩ := exists_val (hnn x (List.mem_cons_self _ _))
        obtain ⟨rc, hrc⟩ := exists_val (hnnxs c hcm)
        have hbc : ¬ (rb < rc) := by
          rw [hrb, hrc] at hlt
          simpa [ltE] using hlt
        refine ⟨List.mem_cons_self _ _, ?_, [], xs, rfl, by simp⟩
        intro y hy
        rcases List.mem_cons.mp hy with rfl | hy2
        · exact ltE_irrefl _
        · obtain ⟨ry, hry⟩ := exists_val (hnnxs y hy2)
          have h2 := hcmax y hy2
          rw [hrc, hry] at h2
          rw [hrb, hry]
          simp [ltE] at h2 ⊢
          linarith

theorem firstArgmax_ne_none {l : List α} (h : l ≠ []) :
    ∃ b, firstArgmax key l = some b := by
  cases hfa : firstArgmax key l with
  | none => exact absurd (firstArgmax_eq_none key hfa) h
  | some b => exact ⟨b, rfl⟩

theorem pySortedRev_eq (l : List α) :
    pySortedRev key l =
      (List.foldr (fun x acc => pyInsert key x acc) [] l).reverse := by
  unfold pySortedRev pySortAsc
  rw [List.foldl_reverse]

end TwentyQ

namespace TwentyQ

/-- C5: on a non-empty batch of scored questions whose scores are all
non-NaN, the selector returns a question; it agrees with the spec-modelled
`firstArgmax`; and that returned entry is maximal in the batch, with every
entry strictly before it scoring strictly lower (first-seen wins on ties). -/
theorem selector_returns_first_maximum (l : List (String × EFloat))
    (hne : l ≠ []) (hnn : ∀ q ∈ l, q.2 ≠ EFloat.nan) :
    (∃ q, best_question l = some q) ∧
    best_question l = (firstArgmax (fun q => q.2) l).map Prod.fst ∧
    (∀ b, firstArgmax (fun q => q.2) l = some b →
      b ∈ l ∧ (∀ y ∈ l, ltE b.2 y.2 = false) ∧
      ∃ pre post, l = pre ++ b :: post ∧ ∀ y ∈ pre, ltE y.2 b.2 = true) := by
  have hmain :=
    sortLoop_getLast_eq_firstArgmax (fun q : String × EFloat => q.2) l hnn
  have heq : best_question l = (firstArgmax (fun q => q.2) l).map Prod.fst := by
    unfold best_question
    rw [pySortedRev_eq, List.head?_reverse, hmain.1]
  refine ⟨?_, heq, ?_⟩
  · obtain ⟨b, hb⟩ := firstArgmax_ne_none (fun q => q.2) hne
    exact ⟨b.1, by rw [heq, hb]; rfl⟩
  · intro b hb
    obtain ⟨hm, hmax, pre, post, hsp, hpre⟩ :=
      firstArgmax_spec (fun q => q.2) l hnn b hb
    exact ⟨hm, hmax, pre, post, hsp, hpre⟩

/-- C5 witness: a concrete three-question batch with a tie for the maximal
score between the second and third entries. -/
theorem selector_returns_first_maximum_witness :
    (∃ q, best_question
        [("a", EFloat.val 1), ("b", EFloat.val 2), ("c", EFloat.val 2)] =
      some q) ∧
    best_question
        [("a", EFloat.val 1), ("b", EFloat.val 2), ("c", EFloat.val 2)] =
      (firstArgmax (fun q => q.2)
        [("a", EFloat.val 1), ("b", EFloat.val 2), ("c", EFloat.val 2)]).map
        Prod.fst ∧
    (∀ b, firstArgmax (fun q => q.2)
        [("a", EFloat.val 1), ("b", EFloat.val 2), ("c", EFloat.val 2)] =
        some b →
      b ∈ [("a", EFloat.val 1), ("b", EFloat.val 2), ("c", EFloat.val 2)] ∧
      (∀ y ∈ [("a", EFloat.val 1), ("b", EFloat.val 2), ("c", EFloat.val 2)],
        ltE b.2 y.2 = false) ∧
      ∃ pre post,
        [("a", EFloat.val 1), ("b", EFloat.val 2), ("c", EFloat.val 2)] =
          pre ++ b :: post ∧ ∀ y ∈ pre, ltE y.2 b.2 = true) :=
  selector_returns_first_maximum
    [("a", EFloat.val 1), ("b", EFloat.val 2), ("c", EFloat.val 2)]
    (List.cons_ne_nil _ _)
    (by
      intro q hq
      rcases List.mem_cons.mp hq with rfl | hq
      · exact fun h => EFloat.noConfusion h
      rcases List.mem_cons.mp hq with rfl | hq
      · exact fun h => EFloat.noConfusion h
      rcases List.mem_cons.mp hq with rfl | hq
      · exact fun h => EFloat.noConfusion h
      · exact absurd hq (List.not_mem_nil q))

/-- C6: evaluation of the selector at the failing input.  Python `sorted`
with `reverse=True` leaves a NaN-keyed entry that precedes all others in
place (every comparison against NaN is False), so the batch
`[("q1", NaN), ("q2", 1.0)]` sorts to itself — the NaN-scored question is
ranked first, not last, and is the question the selector returns. -/
theorem nan_scored_question_selected :
    pySortedRev (fun q : String × EFloat => q.2)
        [("q1", EFloat.nan), ("q2", EFloat.val 1)] =
      [("q1", EFloat.nan), ("q2", EFloat.val 1)] ∧
    best_question [("q1", EFloat.nan), ("q2", EFloat.val 1)] = some "q1" :=
  ⟨rfl, rfl⟩

end TwentyQ

namespace TwentyQ

/-- C9 witness: symmetry at the concrete point 1/3, and NaN at 2. -/
theorem binary_entropy_props_witness :
    binary_entropy (1/3) = binary_entropy (1 - 1/3) ∧
    binary_entropy 2 = EFloat.nan :=
  ⟨binary_entropy_props.1 (1/3) (by norm_num) (by norm_num),
   binary_entropy_props.2.2.2.2 2 (Or.inr (by norm_num))⟩

end TwentyQ
